import Mathlib

/-!
Shallow embedding of the installable-resolution and profile/generation
logic of `src/nix/command.cc`, together with models of the external store
collaborators (resolution, closure computation, generation bookkeeping,
symlink switching) that the command layer consumes.
-/

namespace NixCommand

/-- Store paths are opaque, totally ordered, comparable identifiers; we embed
them as natural numbers. -/
abbrev StorePath := Nat

/-- Errors thrown by the command layer, identified by constructor and message
(the C++ code throws `UsageError` and `Error`; the store-level validity failure
of generation creation is `storeError`).  Quotes of the original messages are
omitted. -/
inductive NixError where
  | usage (msg : String) : NixError
  | storeError (msg : String) : NixError
  | other (msg : String) : NixError
deriving DecidableEq

/-- Observable operations against the external store, recorded as a trace so
that claims about which external calls happen (or do not happen) can be
stated. -/
inductive StoreOp where
  | openStore : StoreOp
  | queryAllValidPaths : StoreOp
  | resolveInstallables : StoreOp
  | closureQuery : StoreOp
  | createGenerationOp : StoreOp
  | switchLinkOp : StoreOp
deriving DecidableEq

/-- Model of the external `Store` collaborator: the set of valid paths (a list
with membership semantics), the "references" edge function of the store path
graph (a list, so duplicate edges are representable), and whether the backend
is a `LocalFSStore`. -/
structure StoreModel where
  validPaths : List StorePath
  refs : StorePath → List StorePath
  isLocalFS : Bool

/-- Resolved form of an installable (`Buildable` in the source): an optional
derivation path and a finite map from output names to store paths, embedded as
an association list in iteration order. -/
structure Buildable where
  drvPath : Option StorePath
  outputs : List (String × StorePath)
deriving DecidableEq

/-- A list of resolved installables (`Buildables` in the source). -/
abbrev Buildables := List Buildable

/-- Flattened sequence of output store paths of a buildable list, in iteration
order: outer loop over the buildables, inner loop over each one's outputs.
This is the order in which both `MixProfile::updateProfile` and the resolver
visit the resolved outputs. -/
def resolvePaths (bs : Buildables) : List StorePath :=
  bs.foldr (fun b acc => b.outputs.map Prod.snd ++ acc) []

/-- Duplicate removal keeping the first occurrence of each element, expressed
with an accumulator of already seen elements. -/
def dedupFirstAux (seen : List StorePath) : List StorePath → List StorePath
  | [] => []
  | x :: xs => if x ∈ seen then dedupFirstAux seen xs else x :: dedupFirstAux (x :: seen) xs

/-- Duplicate removal keeping the first occurrence of each element. -/
def dedupFirst (l : List StorePath) : List StorePath :=
  dedupFirstAux [] l

/-- Modelled from the spec: `toStorePaths` (the Installable Resolver entry
point `resolveToPaths`, whose definition is not part of this fragment) turns a
list of installables — given here by their resolved buildables — into "an
ordered sequence of distinct StorePaths with insertion order preserved and
duplicates removed by identity". -/
def toStorePaths (bs : Buildables) : List StorePath :=
  dedupFirst (resolvePaths bs)

theorem mem_dedupFirstAux {a : StorePath} :
    ∀ (l seen : List StorePath), a ∈ dedupFirstAux seen l ↔ a ∈ l ∧ a ∉ seen := by
  intro l
  induction l with
  | nil => intro seen; simp [dedupFirstAux]
  | cons x xs ih =>
    intro seen
    by_cases hx : x ∈ seen
    · simp only [dedupFirstAux, if_pos hx, ih]
      constructor
      · rintro ⟨h1, h2⟩
        exact ⟨List.mem_cons_of_mem _ h1, h2⟩
      · rintro ⟨h1, h2⟩
        rcases List.mem_cons.mp h1 with h | h
        · exact absurd (h ▸ hx) h2
        · exact ⟨h, h2⟩
    · simp only [dedupFirstAux, if_neg hx]
      constructor
      · intro h
        rcases List.mem_cons.mp h with rfl | h
        · exact ⟨List.mem_cons_self _ _, hx⟩
        · rcases (ih (x :: seen)).mp h with ⟨h1, h2⟩
          exact ⟨List.mem_cons_of_mem _ h1, fun hs => h2 (List.mem_cons_of_mem _ hs)⟩
      · rintro ⟨h1, h2⟩
        rcases List.mem_cons.mp h1 with rfl | h1
        · exact List.mem_cons_self _ _
        · by_cases hax : a = x
          · exact hax ▸ List.mem_cons_self _ _
          · refine List.mem_cons_of_mem _ ((ih (x :: seen)).mpr ⟨h1, fun hs => ?_⟩)
            rcases List.mem_cons.mp hs with h | h
            · exact hax h
            · exact h2 h

theorem mem_dedupFirst {a : StorePath} {l : List StorePath} :
    a ∈ dedupFirst l ↔ a ∈ l := by
  simp [dedupFirst, mem_dedupFirstAux]

theorem nodup_dedupFirstAux :
    ∀ (l seen : List StorePath), (dedupFirstAux seen l).Nodup := by
  intro l
  induction l with
  | nil => intro seen; simp [dedupFirstAux]
  | cons x xs ih =>
    intro seen
    by_cases hx : x ∈ seen
    · simpa [dedupFirstAux, if_pos hx] using ih seen
    · simp only [dedupFirstAux, if_neg hx]
      refine List.nodup_cons.mpr ⟨fun hmem => ?_, ih (x :: seen)⟩
      exact ((mem_dedupFirstAux xs (x :: seen)).mp hmem).2 (List.mem_cons_self x seen)

theorem nodup_dedupFirst (l : List StorePath) : (dedupFirst l).Nodup :=
  nodup_dedupFirstAux l []

theorem sublist_dedupFirstAux :
    ∀ (l seen : List StorePath), List.Sublist (dedupFirstAux seen l) l := by
  intro l
  induction l with
  | nil => intro seen; simp [dedupFirstAux]
  | cons x xs ih =>
    intro seen
    by_cases hx : x ∈ seen
    · simpa [dedupFirstAux, if_pos hx] using List.Sublist.cons x (ih seen)
    · simpa [dedupFirstAux, if_neg hx] using List.Sublist.cons₂ x (ih (x :: seen))

theorem sublist_dedupFirst (l : List StorePath) : List.Sublist (dedupFirst l) l :=
  sublist_dedupFirstAux l []

theorem pairwise_firstOccur_dedupFirstAux :
    ∀ (l seen : List StorePath),
      (dedupFirstAux seen l).Pairwise (fun a b => l.indexOf a < l.indexOf b) := by
  intro l
  induction l with
  | nil => intro seen; simp [dedupFirstAux]
  | cons x xs ih =>
    intro seen
    by_cases hx : x ∈ seen
    · simp only [dedupFirstAux, if_pos hx]
      refine List.Pairwise.imp_of_mem ?_ (ih seen)
      intro a b ha hb hab
      have hax : a ≠ x := fun h => ((mem_dedupFirstAux xs seen).mp ha).2 (h ▸ hx)
      have hbx : b ≠ x := fun h => ((mem_dedupFirstAux xs seen).mp hb).2 (h ▸ hx)
      rw [List.indexOf_cons_ne xs (Ne.symm hax), List.indexOf_cons_ne xs (Ne.symm hbx)]
      exact Nat.succ_lt_succ hab
    · simp only [dedupFirstAux, if_neg hx]
      refine List.pairwise_cons.mpr ⟨?_, ?_⟩
      · intro b hb
        have hbmem := (mem_dedupFirstAux xs (x :: seen)).mp hb
        have hbx : b ≠ x := fun h => hbmem.2 (h ▸ List.mem_cons_self x seen)
        rw [List.indexOf_cons_self, List.indexOf_cons_ne xs (Ne.symm hbx)]
        exact Nat.succ_pos _
      · refine List.Pairwise.imp_of_mem ?_ (ih (x :: seen))
        intro a b ha hb hab
        have hax : a ≠ x := fun h =>
          ((mem_dedupFirstAux xs (x :: seen)).mp ha).2 (h ▸ List.mem_cons_self x seen)
        have hbx : b ≠ x := fun h =>
          ((mem_dedupFirstAux xs (x :: seen)).mp hb).2 (h ▸ List.mem_cons_self x seen)
        rw [List.indexOf_cons_ne xs (Ne.symm hax), List.indexOf_cons_ne xs (Ne.symm hbx)]
        exact Nat.succ_lt_succ hab

/-- Order of the output of `dedupFirst` is the order of the first occurrences
in the input. -/
theorem pairwise_firstOccur_dedupFirst (l : List StorePath) :
    (dedupFirst l).Pairwise (fun a b => l.indexOf a < l.indexOf b) :=
  pairwise_firstOccur_dedupFirstAux l []

/-- Ordered insertion into a duplicate-free sorted list: one element of the
model of `std::set<StorePath>` (`StorePathSet`), whose iteration order the spec
fixes by making store paths "totally ordered for deterministic iteration". -/
def setInsert (x : StorePath) : List StorePath → List StorePath
  | [] => [x]
  | y :: ys => if x < y then x :: y :: ys else if x = y then y :: ys else y :: setInsert x ys

/-- Modelled from the spec: iteration order of a `StorePathSet`
(`std::set<StorePath>`, not part of this fragment) holding the elements of
`l` — sorted and duplicate-free, per the spec's totally ordered store paths. -/
def setOfList (l : List StorePath) : List StorePath :=
  l.foldr setInsert []

theorem mem_setInsert {a x : StorePath} : ∀ {l}, a ∈ setInsert x l ↔ a = x ∨ a ∈ l := by
  intro l
  induction l with
  | nil => simp [setInsert]
  | cons y ys ih =>
    by_cases h1 : x < y
    · simp [setInsert, if_pos h1]
    · by_cases h2 : x = y
      · subst h2
        simp only [setInsert, if_neg h1, if_true, List.mem_cons]
        tauto
      · simp only [setInsert, if_neg h1, if_neg h2, List.mem_cons, ih]
        tauto

theorem mem_setOfList {a : StorePath} : ∀ {l : List StorePath}, a ∈ setOfList l ↔ a ∈ l := by
  intro l
  induction l with
  | nil => simp [setOfList]
  | cons y ys ih =>
    simp only [setOfList, List.foldr_cons, mem_setInsert, List.mem_cons]
    rw [show ys.foldr setInsert [] = setOfList ys from rfl, ih]

theorem sorted_setInsert {x : StorePath} :
    ∀ {l : List StorePath}, l.Pairwise (· < ·) → (setInsert x l).Pairwise (· < ·) := by
  intro l
  induction l with
  | nil => intro _; simp [setInsert]
  | cons y ys ih =>
    intro h
    rcases List.pairwise_cons.mp h with ⟨hy, hys⟩
    by_cases h1 : x < y
    · simp only [setInsert, if_pos h1]
      refine List.pairwise_cons.mpr ⟨?_, h⟩
      intro b hb
      rcases List.mem_cons.mp hb with rfl | hb
      · exact h1
      · exact Nat.lt_trans h1 (hy b hb)
    · by_cases h2 : x = y
      · subst h2
        simp only [setInsert, if_neg h1, if_true]
        exact h
      · have hyx : y < x := Nat.lt_of_le_of_ne (Nat.le_of_not_lt h1) (Ne.symm h2)
        simp only [setInsert, if_neg h1, if_neg h2]
        refine List.pairwise_cons.mpr ⟨?_, ih hys⟩
        intro b hb
        rcases mem_setInsert.mp hb with rfl | hb
        · exact hyx
        · exact hy b hb

theorem sorted_setOfList : ∀ (l : List StorePath), (setOfList l).Pairwise (· < ·) := by
  intro l
  induction l with
  | nil => simp [setOfList]
  | cons y ys ih => exact sorted_setInsert ih

theorem nodup_setOfList (l : List StorePath) : (setOfList l).Nodup :=
  (sorted_setOfList l).imp Nat.ne_of_lt

/-- Bound (plus one) on the number of reference edges of any single path of
`U`; used to size the fuel of the closure traversal. -/
def refsBound (refs : StorePath → List StorePath) (U : List StorePath) : Nat :=
  (U.map fun p => (refs p).length).foldr max 0 + 1

/-- Modelled from the spec: the store's closure primitive
(`Store::computeFSClosure`, not part of this fragment) is a worklist traversal
over the "references" edges that must "visit every path reachable by
references edges exactly once regardless of cycles" and "be safe under
repeated/duplicate edges"; a visited list guards re-visits, and only valid
paths (members of `U`) are expanded.  The recursion is written with explicit
fuel so that it is structural; `computeFSClosure` supplies sufficient fuel. -/
def traverse (refs : StorePath → List StorePath) (U : List StorePath) :
    Nat → List StorePath → List StorePath → Option (List StorePath)
  | _, [], visited => some visited
  | 0, _ :: _, _ => none
  | fuel + 1, p :: rest, visited =>
    if p ∈ visited then traverse refs U fuel rest visited
    else if p ∈ U then traverse refs U fuel (rest ++ refs p) (p :: visited)
    else traverse refs U fuel rest visited

/-- Fuel that always suffices for the closure traversal to complete. -/
def closureFuel (refs : StorePath → List StorePath) (U roots : List StorePath) : Nat :=
  U.length * refsBound refs U + roots.length

/-- Modelled from the spec: `computeFSClosure` computes "the transitive
dependency closure of the given roots using the store's reference graph",
returned in visit order. -/
def computeFSClosure (refs : StorePath → List StorePath) (U roots : List StorePath) :
    List StorePath :=
  (traverse refs U (closureFuel refs U roots) roots []).getD roots

theorem traverse_mono (refs : StorePath → List StorePath) (U : List StorePath) :
    ∀ (fuel : Nat) (todo visited out : List StorePath),
      traverse refs U fuel todo visited = some out → ∀ x ∈ visited, x ∈ out := by
  intro fuel
  induction fuel with
  | zero =>
    intro todo visited out h x hx
    cases todo with
    | nil => cases h; exact hx
    | cons p rest => exact absurd h (by simp [traverse])
  | succ fuel ih =>
    intro todo visited out h x hx
    cases todo with
    | nil => cases h; exact hx
    | cons p rest =>
      by_cases hp : p ∈ visited
      · exact ih rest visited out (by simpa [traverse, hp] using h) x hx
      · by_cases hpU : p ∈ U
        · exact ih (rest ++ refs p) (p :: visited) out
            (by simpa [traverse, hp, hpU] using h) x (List.mem_cons_of_mem _ hx)
        · exact ih rest visited out (by simpa [traverse, hp, hpU] using h) x hx

theorem traverse_sound (refs : StorePath → List StorePath) (U : List StorePath)
    (P : StorePath → Prop) (hP : ∀ p q, P p → q ∈ refs p → P q) :
    ∀ (fuel : Nat) (todo visited out : List StorePath),
      traverse refs U fuel todo visited = some out →
      (∀ v ∈ visited, P v) → (∀ t ∈ todo, P t) → ∀ x ∈ out, P x := by
  intro fuel
  induction fuel with
  | zero =>
    intro todo visited out h hv ht x hx
    cases todo with
    | nil => cases h; exact hv x hx
    | cons p rest => exact absurd h (by simp [traverse])
  | succ fuel ih =>
    intro todo visited out h hv ht x hx
    cases todo with
    | nil => cases h; exact hv x hx
    | cons p rest =>
      by_cases hp : p ∈ visited
      · exact ih rest visited out (by simpa [traverse, hp] using h) hv
          (fun t htm => ht t (List.mem_cons_of_mem _ htm)) x hx
      · by_cases hpU : p ∈ U
        · refine ih (rest ++ refs p) (p :: visited) out
            (by simpa [traverse, hp, hpU] using h) ?_ ?_ x hx
          · intro v hvm
            rcases List.mem_cons.mp hvm with rfl | hvm
            · exact ht v (List.mem_cons_self _ _)
            · exact hv v hvm
          · intro t htm
            rcases List.mem_append.mp htm with htm | htm
            · exact ht t (List.mem_cons_of_mem _ htm)
            · exact hP p t (ht p (List.mem_cons_self _ _)) htm
        · exact ih rest visited out (by simpa [traverse, hp, hpU] using h) hv
            (fun t htm => ht t (List.mem_cons_of_mem _ htm)) x hx

theorem traverse_nodup (refs : StorePath → List StorePath) (U : List StorePath) :
    ∀ (fuel : Nat) (todo visited out : List StorePath),
      traverse refs U fuel todo visited = some out → visited.Nodup → out.Nodup := by
  intro fuel
  induction fuel with
  | zero =>
    intro todo visited out h hnd
    cases todo with
    | nil => cases h; exact hnd
    | cons p rest => exact absurd h (by simp [traverse])
  | succ fuel ih =>
    intro todo visited out h hnd
    cases todo with
    | nil => cases h; exact hnd
    | cons p rest =>
      by_cases hp : p ∈ visited
      · exact ih rest visited out (by simpa [traverse, hp] using h) hnd
      · by_cases hpU : p ∈ U
        · exact ih (rest ++ refs p) (p :: visited) out
            (by simpa [traverse, hp, hpU] using h) (List.nodup_cons.mpr ⟨hp, hnd⟩)
        · exact ih rest visited out (by simpa [traverse, hp, hpU] using h) hnd

theorem traverse_subU (refs : StorePath → List StorePath) (U : List StorePath) :
    ∀ (fuel : Nat) (todo visited out : List StorePath),
      traverse refs U fuel todo visited = some out →
      (∀ v ∈ visited, v ∈ U) → ∀ x ∈ out, x ∈ U := by
  intro fuel
  induction fuel with
  | zero =>
    intro todo visited out h hv x hx
    cases todo with
    | nil => cases h; exact hv x hx
    | cons p rest => exact absurd h (by simp [traverse])
  | succ fuel ih =>
    intro todo visited out h hv x hx
    cases todo with
    | nil => cases h; exact hv x hx
    | cons p rest =>
      by_cases hp : p ∈ visited
      · exact ih rest visited out (by simpa [traverse, hp] using h) hv x hx
      · by_cases hpU : p ∈ U
        · refine ih (rest ++ refs p) (p :: visited) out
            (by simpa [traverse, hp, hpU] using h) ?_ x hx
          intro v hvm
          rcases List.mem_cons.mp hvm with rfl | hvm
          · exact hpU
          · exact hv v hvm
        · exact ih rest visited out (by simpa [traverse, hp, hpU] using h) hv x hx

theorem traverse_todo_mem (refs : StorePath → List StorePath) (U : List StorePath) :
    ∀ (fuel : Nat) (todo visited out : List StorePath),
      traverse refs U fuel todo visited = some out →
      ∀ t ∈ todo, t ∈ U → t ∈ out := by
  intro fuel
  induction fuel with
  | zero =>
    intro todo visited out h t ht htU
    cases todo with
    | nil => cases ht
    | cons p rest => exact absurd h (by simp [traverse])
  | succ fuel ih =>
    intro todo visited out h t ht htU
    cases todo with
    | nil => cases ht
    | cons p rest =>
      by_cases hp : p ∈ visited
      · rcases List.mem_cons.mp ht with rfl | ht
        · exact traverse_mono refs U fuel rest visited out (by simpa [traverse, hp] using h) t hp
        · exact ih rest visited out (by simpa [traverse, hp] using h) t ht htU
      · by_cases hpU : p ∈ U
        · rcases List.mem_cons.mp ht with rfl | ht
          · exact traverse_mono refs U fuel (rest ++ refs t) (t :: visited) out
              (by simpa [traverse, hp, hpU] using h) t (List.mem_cons_self _ _)
          · exact ih (rest ++ refs p) (p :: visited) out
              (by simpa [traverse, hp, hpU] using h) t (List.mem_append_left _ ht) htU
        · rcases List.mem_cons.mp ht with rfl | ht
          · exact absurd htU hpU
          · exact ih rest visited out (by simpa [traverse, hp, hpU] using h) t ht htU

theorem traverse_closed (refs : StorePath → List StorePath) (U : List StorePath)
    (hconf : ∀ p ∈ U, ∀ q ∈ refs p, q ∈ U) :
    ∀ (fuel : Nat) (todo visited out : List StorePath),
      traverse refs U fuel todo visited = some out →
      (∀ v ∈ visited, v ∈ U) →
      (∀ v ∈ visited, ∀ q ∈ refs v, q ∈ visited ∨ q ∈ todo) →
      ∀ v ∈ out, ∀ q ∈ refs v, q ∈ out := by
  intro fuel
  induction fuel with
  | zero =>
    intro todo visited out h hv hinv v hvm q hq
    cases todo with
    | nil =>
      cases h
      rcases hinv v hvm q hq with hq | hq
      · exact hq
      · cases hq
    | cons p rest => exact absurd h (by simp [traverse])
  | succ fuel ih =>
    intro todo visited out h hv hinv v hvm q hq
    cases todo with
    | nil =>
      cases h
      rcases hinv v hvm q hq with hq | hq
      · exact hq
      · cases hq
    | cons p rest =>
      by_cases hp : p ∈ visited
      · refine ih rest visited out (by simpa [traverse, hp] using h) hv ?_ v hvm q hq
        intro w hw r hr
        rcases hinv w hw r hr with h1 | h1
        · exact Or.inl h1
        · rcases List.mem_cons.mp h1 with rfl | h1
          · exact Or.inl hp
          · exact Or.inr h1
      · by_cases hpU : p ∈ U
        · refine ih (rest ++ refs p) (p :: visited) out
            (by simpa [traverse, hp, hpU] using h) ?_ ?_ v hvm q hq
          · intro w hw
            rcases List.mem_cons.mp hw with rfl | hw
            · exact hpU
            · exact hv w hw
          · intro w hw r hr
            rcases List.mem_cons.mp hw with rfl | hw
            · exact Or.inr (List.mem_append_right _ hr)
            · rcases hinv w hw r hr with h1 | h1
              · exact Or.inl (List.mem_cons_of_mem _ h1)
              · rcases List.mem_cons.mp h1 with rfl | h1
                · exact Or.inl (List.mem_cons_self _ _)
                · exact Or.inr (List.mem_append_left _ h1)
        · refine ih rest visited out (by simpa [traverse, hp, hpU] using h) hv ?_ v hvm q hq
          intro w hw r hr
          have hrU : r ∈ U := hconf w (hv w hw) r hr
          rcases hinv w hw r hr with h1 | h1
          · exact Or.inl h1
          · rcases List.mem_cons.mp h1 with rfl | h1
            · exact absurd hrU hpU
            · exact Or.inr h1

theorem le_foldr_max {x : Nat} : ∀ {l : List Nat}, x ∈ l → x ≤ l.foldr max 0 := by
  intro l
  induction l with
  | nil => intro h; cases h
  | cons y ys ih =>
    intro h
    rcases List.mem_cons.mp h with rfl | h
    · exact Nat.le_max_left _ _
    · exact Nat.le_trans (ih h) (Nat.le_max_right _ _)

theorem traverse_isSome (refs : StorePath → List StorePath) (U : List StorePath) :
    ∀ (fuel : Nat) (todo visited : List StorePath),
      (U.toFinset \ visited.toFinset).card * refsBound refs U + todo.length ≤ fuel →
      (traverse refs U fuel todo visited).isSome = true := by
  intro fuel
  induction fuel with
  | zero =>
    intro todo visited hfuel
    cases todo with
    | nil => simp [traverse]
    | cons p rest => simp at hfuel
  | succ fuel ih =>
    intro todo visited hfuel
    cases todo with
    | nil => simp [traverse]
    | cons p rest =>
      by_cases hp : p ∈ visited
      · have h1 : (U.toFinset \ visited.toFinset).card * refsBound refs U + rest.length ≤ fuel := by
          simp only [List.length_cons] at hfuel
          omega
        simpa [traverse, hp] using ih rest visited h1
      · by_cases hpU : p ∈ U
        · have hpC : p ∈ U.toFinset \ visited.toFinset := by
            simp [Finset.mem_sdiff, List.mem_toFinset, hpU, hp]
          have hset : U.toFinset \ (p :: visited).toFinset =
              (U.toFinset \ visited.toFinset).erase p := by
            ext a
            simp only [List.toFinset_cons, Finset.mem_sdiff, Finset.mem_insert,
              Finset.mem_erase]
            tauto
          have hcard : (U.toFinset \ (p :: visited).toFinset).card =
              (U.toFinset \ visited.toFinset).card - 1 := by
            rw [hset, Finset.card_erase_of_mem hpC]
          have hpos : 1 ≤ (U.toFinset \ visited.toFinset).card :=
            Finset.card_pos.mpr ⟨p, hpC⟩
          have hK : (refs p).length + 1 ≤ refsBound refs U := by
            have : (refs p).length ≤ (U.map fun q => (refs q).length).foldr max 0 :=
              le_foldr_max (List.mem_map_of_mem _ hpU)
            simpa [refsBound] using Nat.succ_le_succ this
          have hmul : ((U.toFinset \ visited.toFinset).card - 1) * refsBound refs U
              + refsBound refs U = (U.toFinset \ visited.toFinset).card * refsBound refs U := by
            have h2 := Nat.sub_add_cancel hpos
            calc ((U.toFinset \ visited.toFinset).card - 1) * refsBound refs U + refsBound refs U
                = (((U.toFinset \ visited.toFinset).card - 1) + 1) * refsBound refs U := by
                  rw [Nat.succ_mul]
              _ = (U.toFinset \ visited.toFinset).card * refsBound refs U := by rw [h2]
          have h1 : (U.toFinset \ (p :: visited).toFinset).card * refsBound refs U
              + (rest ++ refs p).length ≤ fuel := by
            rw [hcard, List.length_append]
            simp only [List.length_cons] at hfuel
            omega
          simpa [traverse, hp, hpU] using ih (rest ++ refs p) (p :: visited) h1
        · have h1 : (U.toFinset \ visited.toFinset).card * refsBound refs U + rest.length ≤ fuel := by
            simp only [List.length_cons] at hfuel
            omega
          simpa [traverse, hp, hpU] using ih rest visited h1

theorem traverse_closureFuel_isSome (refs : StorePath → List StorePath) (U roots : List StorePath) :
    (traverse refs U (closureFuel refs U roots) roots []).isSome = true := by
  apply traverse_isSome
  have h1 : (U.toFinset \ ([] : List StorePath).toFinset).card ≤ U.length := by
    simpa using List.toFinset_card_le U
  exact Nat.add_le_add_right (Nat.mul_le_mul_right _ h1) _

theorem computeFSClosure_eq_traverse (refs : StorePath → List StorePath) (U roots : List StorePath) :
    traverse refs U (closureFuel refs U roots) roots [] = some (computeFSClosure refs U roots) := by
  rcases Option.isSome_iff_exists.mp (traverse_closureFuel_isSome refs U roots) with ⟨out, hout⟩
  rw [computeFSClosure, hout]
  rfl

/-- Correctness of the modelled closure primitive: on a store whose reference
edges stay inside the valid paths `U` and for roots inside `U`, the computed
closure is exactly the set of paths reachable from the roots along reference
edges, and the visit list contains every such path exactly once. -/
theorem computeFSClosure_spec (refs : StorePath → List StorePath) (U roots : List StorePath)
    (hconf : ∀ p ∈ U, ∀ q ∈ refs p, q ∈ U)
    (hroots : ∀ r ∈ roots, r ∈ U) :
    (∀ x, x ∈ computeFSClosure refs U roots ↔
        ∃ r ∈ roots, Relation.ReflTransGen (fun a b => b ∈ refs a) r x) ∧
    (computeFSClosure refs U roots).Nodup := by
  have hout := computeFSClosure_eq_traverse refs U roots
  constructor
  · intro x
    constructor
    · intro hx
      refine traverse_sound refs U
        (fun y => ∃ r ∈ roots, Relation.ReflTransGen (fun a b => b ∈ refs a) r y)
        ?_ _ _ _ _ hout (by simp) ?_ x hx
      · rintro p q ⟨r, hr, hrp⟩ hq
        exact ⟨r, hr, hrp.tail hq⟩
      · intro t htm
        exact ⟨t, htm, Relation.ReflTransGen.refl⟩
    · rintro ⟨r, hr, hrx⟩
      induction hrx with
      | refl => exact traverse_todo_mem refs U _ _ _ _ hout r hr (hroots r hr)
      | tail hab hbc ih =>
        exact traverse_closed refs U hconf _ _ _ _ hout (by simp) (by simp) _ ih _ hbc
  · exact traverse_nodup refs U _ _ _ _ hout List.nodup_nil

/-- Embedding of `StorePathsCommand::run` (command.cc lines 78-103): with
`--all`, explicit installables are a usage error and otherwise the store is
asked for all valid paths; without `--all` the installables are resolved to
store paths, and when `recursive` is set the path list is replaced by the
contents of the closure set.  Alongside the result, the trace of store
queries actually performed is returned. -/
def storePathsCommandRun (store : StoreModel) (all recursive : Bool)
    (installables : Buildables) : Except NixError (List StorePath) × List StoreOp :=
  if all then
    if installables.length ≠ 0 then
      (.error (.usage "--all does not expect arguments"), [])
    else
      (.ok (setOfList store.validPaths), [.queryAllValidPaths])
  else
    let storePaths := toStorePaths installables
    if recursive then
      (.ok (setOfList (computeFSClosure store.refs store.validPaths storePaths)),
        [.resolveInstallables, .closureQuery])
    else
      (.ok storePaths, [.resolveInstallables])

/-- Embedding of `StorePathCommand::run` (command.cc lines 105-113): the
installables are resolved; unless exactly one store path results a
`UsageError` is thrown, otherwise the command proceeds with that single
path. -/
def storePathCommandRun (installables : Buildables) : Except NixError StorePath :=
  match toStorePaths installables with
  | [p] => .ok p
  | _ => .error (.usage "this command requires exactly one store path")

/-- On-disk state of a profile: the generation links (`profile-<n>-link`,
recorded as pairs of generation number and target store path), the profile's
top-level symlink (pointing at a generation number, when the profile exists),
and the temporary link used while atomically switching. -/
structure ProfileState where
  gens : List (Nat × StorePath)
  link : Option Nat
  tmp : Option Nat
deriving DecidableEq

/-- Largest generation number present (0 when there are none). -/
def maxGen (gens : List (Nat × StorePath)) : Nat :=
  (gens.map Prod.fst).foldr max 0

/-- Modelled from the spec: `createGeneration` (profiles.cc, not part of this
fragment) "determines the next generation number as max(existing generation
numbers) + 1 (or 1 if none exist), creates a new on-disk link named
deterministically from the profile path and that number, pointing at target.
Fails with StoreError if target is not a valid path known to the store." -/
def createGeneration (store : StoreModel) (st : ProfileState) (target : StorePath) :
    Except NixError (ProfileState × Nat) :=
  if target ∈ store.validPaths then
    let n := maxGen st.gens + 1
    .ok (⟨(n, target) :: st.gens, st.link, st.tmp⟩, n)
  else
    .error (.storeError "path is not valid")

/-- Atomic filesystem operations used by the symlink switch: creating the
temporary link, and the single-syscall rename that replaces the profile
symlink with it. -/
inductive LinkOp where
  | mkTmp (gen : Nat) : LinkOp
  | renameTmp : LinkOp

/-- Effect of one atomic filesystem operation on the profile state. -/
def applyLinkOp : ProfileState → LinkOp → ProfileState
  | st, .mkTmp n => ⟨st.gens, st.link, some n⟩
  | st, .renameTmp =>
    match st.tmp with
    | some n => ⟨st.gens, some n, none⟩
    | none => st

/-- Modelled from the spec: `switchLink` (not part of this fragment) "must use
a create-new-then-rename (or equivalent single-syscall link-replace) pattern";
its atomic steps, in order. -/
def switchLinkOps (gen : Nat) : List LinkOp :=
  [.mkTmp gen, .renameTmp]

/-- Net effect of `switchLink`: run all of its atomic steps. -/
def switchLink (st : ProfileState) (gen : Nat) : ProfileState :=
  (switchLinkOps gen).foldl applyLinkOp st

/-- Resolve a profile: follow the top-level symlink to its generation link and
that generation link to its store path target. -/
def resolveProfile (st : ProfileState) : Option StorePath :=
  st.link.bind fun n => st.gens.lookup n

/-- Embedding of `MixProfile::updateProfile(const StorePath &)` (command.cc
lines 139-149): a no-op without `--profile`; otherwise the store is opened and
must be a `LocalFSStore`, a new generation pointing at the path is created,
and the profile symlink is switched to it.  The trace records the external
operations performed. -/
def updateProfileStorePath (store : StoreModel) (profile : Option String)
    (st : ProfileState) (storePath : StorePath) :
    Except NixError ProfileState × List StoreOp :=
  match profile with
  | none => (.ok st, [])
  | some _ =>
    if store.isLocalFS then
      match createGeneration store st storePath with
      | .ok (st1, n) =>
        (.ok (switchLink st1 n), [.openStore, .createGenerationOp, .switchLinkOp])
      | .error e => (.error e, [.openStore, .createGenerationOp])
    else
      (.error (.other "--profile is not supported for this Nix store"), [.openStore])

/-- Embedding of the result-collection loop of
`MixProfile::updateProfile(const Buildables &)` (command.cc lines 155-163):
fold over the flattened outputs; any output found while a result is already
present throws, regardless of whether it maps to the same path. -/
def collectSingle : List StorePath → Option StorePath → Except NixError (Option StorePath)
  | [], acc => .ok acc
  | _ :: _, some _ =>
    .error (.other
      "--profile requires that the arguments produce a single store path, but there are multiple")
  | p :: ps, none => collectSingle ps (some p)

/-- Embedding of `MixProfile::updateProfile(const Buildables &)` (command.cc
lines 151-169): a no-op without `--profile`; otherwise the outputs of all
buildables are collapsed to a single result (any second output throws, no
output at all throws) and the single-path overload is invoked on it. -/
def updateProfileBuildables (store : StoreModel) (profile : Option String)
    (st : ProfileState) (buildables : Buildables) :
    Except NixError ProfileState × List StoreOp :=
  match profile with
  | none => (.ok st, [])
  | some prof =>
    match collectSingle (resolvePaths buildables) none with
    | .error e => (.error e, [])
    | .ok none =>
      (.error (.other
        "--profile requires that the arguments produce a single store path, but there are none"), [])
    | .ok (some p) => updateProfileStorePath store (some prof) st p

/-- Sequences of `createGeneration` calls on one profile, allowing an external
actor to delete generation links strictly older than the one just created
between consecutive calls (the `keep` predicate; a dropped link must have a
smaller number).  The list collects the generation numbers handed out. -/
inductive GenSeq (store : StoreModel) : ProfileState → List Nat → ProfileState → Prop where
  | base (st : ProfileState) : GenSeq store st [] st
  | step {st0 : ProfileState} {ns : List Nat} {st st1 : ProfileState} {t : StorePath} {n : Nat}
      (keep : Nat × StorePath → Bool) :
      GenSeq store st0 ns st →
      createGeneration store st t = .ok (st1, n) →
      (∀ g ∈ st1.gens, keep g = false → g.1 < n) →
      GenSeq store st0 (ns ++ [n]) ⟨st1.gens.filter keep, st1.link, st1.tmp⟩

/-! Concrete fixtures used by witnesses and counterexamples. -/

/-- Reference edges of the example store: 0 → 1 (a duplicated edge) and
1 → 2. -/
def exRefs : StorePath → List StorePath := fun p =>
  if p = 0 then [1, 1] else if p = 1 then [2] else []

/-- Example local store with valid paths 0, 1, 2 and edges `exRefs`. -/
def exStore : StoreModel := ⟨[0, 1, 2], exRefs, true⟩

/-- Example local store with valid paths 0 and 1 and no reference edges. -/
def exStoreNoRefs : StoreModel := ⟨[0, 1], fun _ => [], true⟩

/-- Example store whose backend is not a `LocalFSStore`. -/
def exRemoteStore : StoreModel := ⟨[0, 1], fun _ => [], false⟩

/-- Two installables whose resolved outputs are the paths 1 and 0, in that
order. -/
def exBuildables : Buildables := [⟨none, [("out", 1)]⟩, ⟨none, [("out", 0)]⟩]

/-- One installable resolving to the single path 0. -/
def exRootA : Buildables := [⟨none, [("out", 0)]⟩]

/-- One installable with two outputs that map to the same store path 1. -/
def exSamePathBuildables : Buildables := [⟨none, [("dev", 1), ("out", 1)]⟩]

/-- A profile with no generations and no symlink. -/
def exEmptyProfile : ProfileState := ⟨[], none, none⟩

/-- A profile holding generations 1 → 5 and 2 → 6, currently at generation
1. -/
def exProfileTwoGens : ProfileState := ⟨[(1, 5), (2, 6)], some 1, none⟩

/-! Claim theorems. -/

/-- C9: without `--profile` both `updateProfile` overloads return immediately
as successful no-ops — the profile state is unchanged, no store is opened (the
operation trace is empty) and no error is raised — for every input, including
buildable sets with zero outputs or several distinct paths, whose arity
validation is skipped entirely. -/
theorem updateProfile_noop_without_profile (store : StoreModel) (st : ProfileState)
    (p : StorePath) (bs : Buildables) :
    updateProfileStorePath store none st p = (.ok st, []) ∧
    updateProfileBuildables store none st bs = (.ok st, []) :=
  ⟨rfl, rfl⟩

/-- C10: with `--all` selected and no explicit installables, the result is
exactly the store's set of valid paths (iterated in set order), with no
closure expansion applied — the trace holds only the all-paths query — and is
independent of the recursive toggle. -/
theorem storePathsRun_all_ignores_recursive (store : StoreModel) (recursive : Bool) :
    storePathsCommandRun store true recursive [] =
      (.ok (setOfList store.validPaths), [.queryAllValidPaths]) ∧
    (∀ p, p ∈ setOfList store.validPaths ↔ p ∈ store.validPaths) :=
  ⟨by simp [storePathsCommandRun], fun _ => mem_setOfList⟩

/-- C3: for every non-empty installable list, combining `--all` with explicit
installables fails with a `UsageError`, and the store is never queried for
paths (the operation trace is empty). -/
theorem storePathsRun_all_with_installables_usageError
    (store : StoreModel) (recursive : Bool) (installables : Buildables)
    (h : installables ≠ []) :
    storePathsCommandRun store true recursive installables =
      (.error (.usage "--all does not expect arguments"), []) := by
  have hlen : installables.length ≠ 0 := fun hl => h (List.length_eq_zero.mp hl)
  simp [storePathsCommandRun, hlen]

/-- Witness for C3 at a concrete non-empty installable list. -/
theorem storePathsRun_all_with_installables_usageError_witness :
    storePathsCommandRun exStore true false exBuildables =
      (.error (.usage "--all does not expect arguments"), []) :=
  storePathsRun_all_with_installables_usageError exStore false exBuildables (by decide)

/-- C5: the single-path command fails with a `UsageError` whenever resolution
yields zero or more than one store path, and proceeds with the path when it
yields exactly one. -/
theorem storePathCommandRun_exactly_one (installables : Buildables) :
    ((toStorePaths installables).length ≠ 1 →
      storePathCommandRun installables =
        .error (.usage "this command requires exactly one store path")) ∧
    (∀ p, toStorePaths installables = [p] →
      storePathCommandRun installables = .ok p) := by
  constructor
  · intro h
    rcases hm : toStorePaths installables with _ | ⟨p, _ | ⟨q, rest⟩⟩
    · simp [storePathCommandRun, hm]
    · exact absurd (by rw [hm]; rfl) h
    · simp [storePathCommandRun, hm]
  · intro p hp
    simp [storePathCommandRun, hp]

/-- Witness for C5 at an installable list resolving to exactly one path. -/
theorem storePathCommandRun_exactly_one_witness :
    storePathCommandRun exRootA = .ok 0 :=
  (storePathCommandRun_exactly_one exRootA).2 0 (by decide)

/-- C2 as stated is refuted: in recursive mode the output list is the closure
set in store-path order, not in first-occurrence order of the resolved paths.
Here the installables resolve to the sequence [1, 0] in a store with no
reference edges, yet the run outputs [0, 1]. -/
theorem storePathsRun_recursive_order_counterexample :
    resolvePaths exBuildables = [1, 0] ∧
    (storePathsCommandRun exStoreNoRefs false true exBuildables).1 = .ok [0, 1] ∧
    ¬ ([0, 1].Pairwise (fun a b =>
        (resolvePaths exBuildables).indexOf a < (resolvePaths exBuildables).indexOf b)) :=
  ⟨rfl, rfl, by decide⟩

/-- C2 (amended): the path list produced by the resolver run never contains
duplicates; in non-recursive mode it is the resolved sequence with duplicates
removed, preserving first-occurrence order, while in recursive mode it is the
closure set iterated in the store's path order (sorted), which need not follow
the first-occurrence order of the resolved paths. -/
theorem storePathsRun_nodup_and_order (store : StoreModel) (recursive : Bool)
    (installables : Buildables) :
    ∃ out, (storePathsCommandRun store false recursive installables).1 = .ok out ∧
      out.Nodup ∧
      (recursive = false →
        out = dedupFirst (resolvePaths installables) ∧
        out.Pairwise (fun a b =>
          (resolvePaths installables).indexOf a < (resolvePaths installables).indexOf b)) ∧
      (recursive = true → out.Pairwise (· < ·)) := by
  cases recursive
  · refine ⟨toStorePaths installables, by simp [storePathsCommandRun], nodup_dedupFirst _,
      fun _ => ⟨rfl, pairwise_firstOccur_dedupFirst _⟩, fun h => absurd h (by decide)⟩
  · refine ⟨setOfList (computeFSClosure store.refs store.validPaths (toStorePaths installables)),
      by simp [storePathsCommandRun], nodup_setOfList _,
      fun h => absurd h (by decide), fun _ => sorted_setOfList _⟩

/-- Witness for C2 (amended) at a concrete non-recursive run. -/
theorem storePathsRun_nodup_and_order_witness :
    ∃ out, (storePathsCommandRun exStore false false exBuildables).1 = .ok out ∧
      out.Nodup ∧
      (false = false →
        out = dedupFirst (resolvePaths exBuildables) ∧
        out.Pairwise (fun a b =>
          (resolvePaths exBuildables).indexOf a < (resolvePaths exBuildables).indexOf b)) ∧
      (false = true → out.Pairwise (· < ·)) :=
  storePathsRun_nodup_and_order exStore false exBuildables

/-- C4: in recursive mode the run returns exactly the set of paths transitively
reachable from the resolved roots along reference edges, with the traversal
visiting each reachable path exactly once (its visit list has no duplicates,
also in the presence of repeated or duplicate edges); in non-recursive mode
only the resolved roots are returned. -/
theorem storePathsRun_closure_spec (store : StoreModel) (installables : Buildables)
    (hconf : ∀ p ∈ store.validPaths, ∀ q ∈ store.refs p, q ∈ store.validPaths)
    (hroots : ∀ r ∈ resolvePaths installables, r ∈ store.validPaths) :
    (∃ out, (storePathsCommandRun store false true installables).1 = .ok out ∧
      (∀ x, x ∈ out ↔ ∃ r ∈ resolvePaths installables,
        Relation.ReflTransGen (fun a b => b ∈ store.refs a) r x) ∧
      out.Nodup) ∧
    (computeFSClosure store.refs store.validPaths (toStorePaths installables)).Nodup ∧
    (∃ out2, (storePathsCommandRun store false false installables).1 = .ok out2 ∧
      ∀ x, x ∈ out2 ↔ x ∈ resolvePaths installables) := by
  have hroots2 : ∀ r ∈ toStorePaths installables, r ∈ store.validPaths := fun r hr =>
    hroots r (mem_dedupFirst.mp hr)
  have hspec := computeFSClosure_spec store.refs store.validPaths
    (toStorePaths installables) hconf hroots2
  refine ⟨⟨setOfList (computeFSClosure store.refs store.validPaths (toStorePaths installables)),
    by simp [storePathsCommandRun], ?_, nodup_setOfList _⟩, hspec.2,
    toStorePaths installables, by simp [storePathsCommandRun],
    fun x => mem_dedupFirst⟩
  intro x
  rw [mem_setOfList, hspec.1 x]
  constructor
  · rintro ⟨r, hr, hrx⟩
    exact ⟨r, mem_dedupFirst.mp hr, hrx⟩
  · rintro ⟨r, hr, hrx⟩
    exact ⟨r, mem_dedupFirst.mpr hr, hrx⟩

/-- Witness for C4 on the store with edges 0 → 1 (duplicated) and 1 → 2,
starting from the single resolved root 0. -/
theorem storePathsRun_closure_spec_witness :
    (∃ out, (storePathsCommandRun exStore false true exRootA).1 = .ok out ∧
      (∀ x, x ∈ out ↔ ∃ r ∈ resolvePaths exRootA,
        Relation.ReflTransGen (fun a b => b ∈ exStore.refs a) r x) ∧
      out.Nodup) ∧
    (computeFSClosure exStore.refs exStore.validPaths (toStorePaths exRootA)).Nodup ∧
    (∃ out2, (storePathsCommandRun exStore false false exRootA).1 = .ok out2 ∧
      ∀ x, x ∈ out2 ↔ x ∈ resolvePaths exRootA) :=
  storePathsRun_closure_spec exStore exRootA (by decide) (by decide)

/-- Helper: with a profile set, a local store and a valid target path, the
single-path `updateProfile` creates the next generation for that path and
switches the profile symlink to it, after which the profile resolves to the
path. -/
theorem updateProfileStorePath_publishes (store : StoreModel) (prof : String)
    (st : ProfileState) (p : StorePath) (hl : store.isLocalFS = true)
    (hv : p ∈ store.validPaths) :
    updateProfileStorePath store (some prof) st p =
      (.ok ⟨(maxGen st.gens + 1, p) :: st.gens, some (maxGen st.gens + 1), none⟩,
        [.openStore, .createGenerationOp, .switchLinkOp]) ∧
    resolveProfile ⟨(maxGen st.gens + 1, p) :: st.gens, some (maxGen st.gens + 1), none⟩ =
      some p := by
  constructor
  · simp [updateProfileStorePath, hl, createGeneration, hv, switchLink, switchLinkOps,
      applyLinkOp]
  · simp [resolveProfile, List.lookup]

/-- C1 as stated is refuted: with a profile set, a buildable set whose two
outputs map to the same store path is rejected with the "multiple" error
instead of succeeding and publishing that path. -/
theorem updateProfileBuildables_samePath_counterexample :
    resolvePaths exSamePathBuildables = [1, 1] ∧
    (updateProfileBuildables exStore (some "profile") exEmptyProfile exSamePathBuildables).1 =
      .error (.other
        "--profile requires that the arguments produce a single store path, but there are multiple") :=
  ⟨rfl, rfl⟩

/-- C1 (amended): with a profile set, the buildable-set `updateProfile`
requires exactly one output across all buildables: two or more outputs fail
with the "multiple" error even when they map to the same store path, zero
outputs fail with the "none" error, and a single output delegates to the
single-path update, which publishes that path on a local store holding it. -/
theorem updateProfileBuildables_single_output (store : StoreModel) (prof : String)
    (st : ProfileState) (bs : Buildables) :
    (resolvePaths bs = [] →
      updateProfileBuildables store (some prof) st bs =
        (.error (.other
          "--profile requires that the arguments produce a single store path, but there are none"),
          [])) ∧
    (2 ≤ (resolvePaths bs).length →
      updateProfileBuildables store (some prof) st bs =
        (.error (.other
          "--profile requires that the arguments produce a single store path, but there are multiple"),
          [])) ∧
    (∀ p, resolvePaths bs = [p] →
      updateProfileBuildables store (some prof) st bs =
        updateProfileStorePath store (some prof) st p) ∧
    (∀ p, resolvePaths bs = [p] → store.isLocalFS = true → p ∈ store.validPaths →
      updateProfileBuildables store (some prof) st bs =
        (.ok ⟨(maxGen st.gens + 1, p) :: st.gens, some (maxGen st.gens + 1), none⟩,
          [.openStore, .createGenerationOp, .switchLinkOp]) ∧
      resolveProfile ⟨(maxGen st.gens + 1, p) :: st.gens, some (maxGen st.gens + 1), none⟩ =
        some p) := by
  refine ⟨?_, ?_, ?_, ?_⟩
  · intro h
    simp [updateProfileBuildables, h, collectSingle]
  · intro h
    rcases hm : resolvePaths bs with _ | ⟨p, _ | ⟨q, rest⟩⟩
    · rw [hm] at h; simp at h
    · rw [hm] at h; simp at h
    · simp [updateProfileBuildables, hm, collectSingle]
  · intro p hp
    simp [updateProfileBuildables, hp, collectSingle]
  · intro p hp hl hv
    have hpub := updateProfileStorePath_publishes store prof st p hl hv
    refine ⟨?_, hpub.2⟩
    rw [show updateProfileBuildables store (some prof) st bs =
        updateProfileStorePath store (some prof) st p by
      simp [updateProfileBuildables, hp, collectSingle]]
    exact hpub.1

/-- Witness for C1 (amended) at a buildable set with a single output. -/
theorem updateProfileBuildables_single_output_witness :
    updateProfileBuildables exStore (some "profile") exEmptyProfile exRootA =
      (.ok ⟨(maxGen exEmptyProfile.gens + 1, 0) :: exEmptyProfile.gens,
        some (maxGen exEmptyProfile.gens + 1), none⟩,
        [.openStore, .createGenerationOp, .switchLinkOp]) ∧
    resolveProfile ⟨(maxGen exEmptyProfile.gens + 1, 0) :: exEmptyProfile.gens,
      some (maxGen exEmptyProfile.gens + 1), none⟩ = some 0 :=
  (updateProfileBuildables_single_output exStore "profile" exEmptyProfile exRootA).2.2.2
    0 (by decide) (by decide) (by decide)

/-- C7: a profile update against a store backend that is not a `LocalFSStore`
fails with the capability error; only the store-open appears in the trace, so
no generation is created and no link is switched, and no updated profile state
is produced. -/
theorem updateProfile_nonlocal_store_error (store : StoreModel) (prof : String)
    (st : ProfileState) (p : StorePath) (bs : Buildables)
    (h : store.isLocalFS = false) :
    updateProfileStorePath store (some prof) st p =
      (.error (.other "--profile is not supported for this Nix store"), [.openStore]) ∧
    (resolvePaths bs = [p] →
      updateProfileBuildables store (some prof) st bs =
        (.error (.other "--profile is not supported for this Nix store"), [.openStore])) := by
  constructor
  · simp [updateProfileStorePath, h]
  · intro hbs
    simp [updateProfileBuildables, hbs, collectSingle, updateProfileStorePath, h]

/-- Witness for C7 at a concrete non-local store. -/
theorem updateProfile_nonlocal_store_error_witness :
    updateProfileStorePath exRemoteStore (some "profile") exEmptyProfile 0 =
      (.error (.other "--profile is not supported for this Nix store"), [.openStore]) ∧
    (resolvePaths exRootA = [0] →
      updateProfileBuildables exRemoteStore (some "profile") exEmptyProfile exRootA =
        (.error (.other "--profile is not supported for this Nix store"), [.openStore])) :=
  updateProfile_nonlocal_store_error exRemoteStore "profile" exEmptyProfile 0 exRootA rfl

/-- C8: switching the profile to a generation `g` is atomic.  Along the
create-then-rename step sequence: any run that has completed the rename step
resolves the profile to exactly the generation's target (in particular when
interrupted immediately after the rename), and after every step position the
profile symlink is either the old link or the new one — a reader never
observes a missing or partially written profile symlink. -/
theorem switchLink_atomic_spec (st : ProfileState) (gn : Nat) (gt : StorePath)
    (hg : st.gens.lookup gn = some gt) :
    (∀ k, 2 ≤ k →
      resolveProfile (((switchLinkOps gn).take k).foldl applyLinkOp st) = some gt) ∧
    (∀ k, (((switchLinkOps gn).take k).foldl applyLinkOp st).link = st.link ∨
      (((switchLinkOps gn).take k).foldl applyLinkOp st).link = some gn) ∧
    (∀ k, st.link.isSome = true →
      (((switchLinkOps gn).take k).foldl applyLinkOp st).link.isSome = true) := by
  refine ⟨?_, ?_, ?_⟩
  · intro k hk
    obtain ⟨m, rfl⟩ : ∃ m, k = m + 2 := ⟨k - 2, by omega⟩
    simp [switchLinkOps, List.take, applyLinkOp, resolveProfile, hg]
  · intro k
    match k with
    | 0 => exact Or.inl rfl
    | 1 => exact Or.inl rfl
    | (m + 2) => exact Or.inr (by simp [switchLinkOps, List.take, applyLinkOp])
  · intro k hl
    match k with
    | 0 => exact hl
    | 1 => exact hl
    | (m + 2) => simp [switchLinkOps, List.take, applyLinkOp]

/-- Witness for C8: switching the two-generation profile to generation 2. -/
theorem switchLink_atomic_spec_witness :
    (∀ k, 2 ≤ k →
      resolveProfile (((switchLinkOps 2).take k).foldl applyLinkOp exProfileTwoGens) =
        some 6) ∧
    (∀ k, (((switchLinkOps 2).take k).foldl applyLinkOp exProfileTwoGens).link =
        exProfileTwoGens.link ∨
      (((switchLinkOps 2).take k).foldl applyLinkOp exProfileTwoGens).link = some 2) ∧
    (∀ k, exProfileTwoGens.link.isSome = true →
      (((switchLinkOps 2).take k).foldl applyLinkOp exProfileTwoGens).link.isSome = true) :=
  switchLink_atomic_spec exProfileTwoGens 2 6 rfl

theorem foldr_max_le {m : Nat} : ∀ {l : List Nat}, (∀ x ∈ l, x ≤ m) → l.foldr max 0 ≤ m := by
  intro l
  induction l with
  | nil => intro _; exact Nat.zero_le m
  | cons y ys ih =>
    intro h
    simp only [List.foldr_cons]
    exact Nat.max_le.mpr
      ⟨h y (List.mem_cons_self _ _), ih fun x hx => h x (List.mem_cons_of_mem _ hx)⟩

theorem maxGen_eq {gens : List (Nat × StorePath)} {m : Nat}
    (hmem : m ∈ gens.map Prod.fst) (hub : ∀ g ∈ gens, g.1 ≤ m) : maxGen gens = m := by
  refine Nat.le_antisymm (foldr_max_le ?_) (le_foldr_max hmem)
  intro x hx
  rcases List.mem_map.mp hx with ⟨g, hg, rfl⟩
  exact hub g hg

/-- Invariant of generation-creation sequences: from an empty profile the
numbers handed out are `1..N`, the maximum number on disk after `N` calls is
`N`, and every surviving link carries a number of at most `N`. -/
theorem genSeq_invariant (store : StoreModel) {st0 : ProfileState} {ns : List Nat}
    {st : ProfileState} (h : GenSeq store st0 ns st) :
    st0.gens = [] →
    ns = List.range' 1 ns.length ∧ maxGen st.gens = ns.length ∧
      ∀ g ∈ st.gens, g.1 ≤ ns.length := by
  induction h with
  | base =>
    intro h0
    refine ⟨rfl, ?_, ?_⟩
    · rw [h0]; rfl
    · intro g hg; rw [h0] at hg; cases hg
  | @step nsx stx st1x tx nx keep hseq hcg hkeep ih =>
    intro h0
    obtain ⟨h1, h2, h3⟩ := ih h0
    by_cases ht : tx ∈ store.validPaths
    · simp only [createGeneration] at hcg
      rw [if_pos ht] at hcg
      simp only [Except.ok.injEq, Prod.mk.injEq] at hcg
      obtain ⟨hst1, hn⟩ := hcg
      subst hst1
      subst hn
      have hkt : keep (maxGen stx.gens + 1, tx) = true := by
        cases hkt0 : keep (maxGen stx.gens + 1, tx) with
        | false =>
          have := hkeep (maxGen stx.gens + 1, tx) (List.mem_cons_self _ _) hkt0
          exact absurd this (Nat.lt_irrefl _)
        | true => rfl
      have hub : ∀ g ∈ ((maxGen stx.gens + 1, tx) :: stx.gens).filter keep,
          g.1 ≤ maxGen stx.gens + 1 := by
        intro g hgm
        rcases List.mem_cons.mp (List.mem_of_mem_filter hgm) with rfl | hgm2
        · exact Nat.le_refl _
        · rw [h2]
          exact Nat.le_trans (h3 g hgm2) (Nat.le_succ _)
      have hmax : maxGen (((maxGen stx.gens + 1, tx) :: stx.gens).filter keep)
          = maxGen stx.gens + 1 := by
        have hmem0 : (maxGen stx.gens + 1, tx) ∈
            ((maxGen stx.gens + 1, tx) :: stx.gens).filter keep :=
          List.mem_filter.mpr ⟨List.mem_cons_self _ _, hkt⟩
        exact maxGen_eq (List.mem_map_of_mem Prod.fst hmem0) hub
      refine ⟨?_, ?_, ?_⟩
      · rw [List.length_append, List.length_singleton, List.range'_concat]
        have hlast : 1 + 1 * nsx.length = nsx.length + 1 := by omega
        rw [hlast, ← h1, h2]
      · simpa [List.length_append, h2] using hmax
      · intro g hgm
        have := hub g hgm
        simp only [List.length_append, List.length_singleton]
        omega
    · simp only [createGeneration] at hcg
      rw [if_neg ht] at hcg
      simp at hcg

/-- C6: starting from a profile with no generations, `N` sequential
`createGeneration` calls hand out exactly the generation numbers `1..N`, with
no gaps and no reuse, even when generation links strictly older than the most
recently created one are externally deleted between the calls: the next number
is always `max(existing generation numbers) + 1`, and the maximum after `N`
calls is `N`. -/
theorem createGeneration_sequential_numbering (store : StoreModel)
    {ns : List Nat} {st : ProfileState}
    (h : GenSeq store ⟨[], none, none⟩ ns st) :
    ns = List.range' 1 ns.length ∧ maxGen st.gens = ns.length :=
  ⟨(genSeq_invariant store h rfl).1, (genSeq_invariant store h rfl).2.1⟩

/-- Witness for C6: two creations, with the older generation link deleted in
between, yield the numbers [1, 2]. -/
theorem createGeneration_sequential_numbering_witness :
    ([1, 2] : List Nat) = List.range' 1 2 ∧ maxGen [(2, 1)] = 2 := by
  have hc1 : createGeneration exStore exEmptyProfile 0 = .ok (⟨[(1, 0)], none, none⟩, 1) := rfl
  have h1 : GenSeq exStore exEmptyProfile [1] ⟨[(1, 0)], none, none⟩ :=
    GenSeq.step (fun _ => true) (GenSeq.base exEmptyProfile) hc1 (by decide)
  have hc2 : createGeneration exStore ⟨[(1, 0)], none, none⟩ 1 =
      .ok (⟨[(2, 1), (1, 0)], none, none⟩, 2) := rfl
  have h2 : GenSeq exStore exEmptyProfile [1, 2] ⟨[(2, 1)], none, none⟩ :=
    GenSeq.step (fun g => g.1 != 1) h1 hc2 (by decide)
  exact createGeneration_sequential_numbering exStore h2

end NixCommand
